import Mathlib

/-!
Verification of the PHYLIP multiple-sequence-alignment codec from
`skbio/io/format/phylip.py`.

Text is embedded as `List Char`.  Python string primitives used by the
source (`str.split()`, `str.find`, `int()`, `str.translate` with a
whitespace-deleting table, slicing, left-justification) are embedded as
executable Lean functions.  A text stream is embedded as the list of its
lines with the trailing line terminator removed.
-/

abbrev Str := List Char

/-- Python's `string.whitespace`: the six ASCII whitespace characters. -/
def whitespaceChars : Str := [' ', '\t', '\n', '\r', '\x0b', '\x0c']

/-- `line.translate(_whitespace_translate_table)`: delete every whitespace
character from the string. -/
def removeWhitespace (s : Str) : Str :=
  s.filter (fun c => decide (c ∉ whitespaceChars))

/-- A line that is empty after whitespace trimming (a "blank" line). -/
def isBlank (l : Str) : Bool :=
  l.all (fun c => decide (c ∈ whitespaceChars))

/-- Modelled from the spec: `_line_generator` from `skbio.io.format._base`
is not part of the reviewed sources.  The spec's Line Source "produces a
lazy, single-pass, finite sequence of lines with trailing line terminators
removed. Optional mode skips lines that are empty after whitespace
trimming."  Lines arrive here already terminator-free, so only the
optional blank-skipping mode remains to model. -/
def lineGenerator (lines : List Str) (skip_blanks : Bool) : List Str :=
  if skip_blanks then lines.filter (fun l => !isBlank l) else lines

/-- Python `line.find(c)` for a single character, with `none` playing the
role of `-1` (character absent). -/
def pyFind (c : Char) : Str → Option Nat
  | [] => none
  | x :: rest => if x = c then some 0 else (pyFind c rest).map (· + 1)

/-- Helper for `pySplit`: accumulates the current token in reverse. -/
def pySplitAux : Str → Str → List Str
  | [], acc => if acc.isEmpty then [] else [acc.reverse]
  | c :: rest, acc =>
    if c ∈ whitespaceChars then
      if acc.isEmpty then pySplitAux rest [] else acc.reverse :: pySplitAux rest []
    else pySplitAux rest (c :: acc)

/-- Python `s.split()` with no argument: split on runs of whitespace,
discarding empty tokens. -/
def pySplit (s : Str) : List Str := pySplitAux s []

/-- The decimal digit character for `d < 10` (`48 = '0'.toNat`). -/
def digitChar (d : Nat) : Char := Char.ofNat (48 + d)

/-- Value of a decimal digit character, if it is one. -/
def digitVal (c : Char) : Option Nat :=
  if 48 ≤ c.toNat ∧ c.toNat ≤ 57 then some (c.toNat - 48) else none

/-- Left-to-right accumulation of decimal digits; fails on a non-digit. -/
def parseDigitsAux : Str → Nat → Option Nat
  | [], acc => some acc
  | c :: rest, acc =>
    match digitVal c with
    | some d => parseDigitsAux rest (acc * 10 + d)
    | none => none

/-- Parse a non-empty string of decimal digits. -/
def parseDigits (s : Str) : Option Nat :=
  if s.isEmpty then none else parseDigitsAux s 0

/-- Python `int(token)` on a whitespace-free token: an optional sign
followed by one or more decimal digits; `none` models `ValueError`. -/
def pyInt : Str → Option Int
  | [] => none
  | c :: rest =>
    if c = '+' then (parseDigits rest).map (fun n => (n : Int))
    else if c = '-' then (parseDigits rest).map (fun n => -(n : Int))
    else (parseDigits (c :: rest)).map (fun n => (n : Int))

/-- The errors raised by the codec (`PhylipFormatError` in the source). -/
inductive PhylipFormatError where
  | headerTokenCount : Nat → PhylipFormatError
  | headerValuesNotIntegers : PhylipFormatError
  | emptyAlignment : PhylipFormatError
  | zeroLengthSequences : PhylipFormatError
  | idTooLong : Str → PhylipFormatError
deriving DecidableEq, Repr

/-- `_parse_phylip_header(header, raise_exc)`: split the line on runs of
whitespace; demand exactly two tokens, both parsing as integers.  In
raising mode a violation is a `PhylipFormatError`; otherwise the function
returns the sentinel `None` (here `.ok none`). -/
def parse_phylip_header (header : Str) (raise_exc : Bool) :
    Except PhylipFormatError (Option (Int × Int)) :=
  match pySplit header with
  | [p0, p1] =>
    match pyInt p0, pyInt p1 with
    | some a, some b => .ok (some (a, b))
    | _, _ =>
      if raise_exc then .error .headerValuesNotIntegers else .ok none
  | parts =>
    if raise_exc then .error (.headerTokenCount parts.length) else .ok none

/-- The generator expression inside `relaxed_ids`:
`line.find(c) for c in delimiters if line.find(c) > 0` — the first
occurrence position of each whitespace character, kept only when
strictly positive (absent characters find `-1` and are dropped too). -/
def relaxedCands (line : Str) : List Nat :=
  whitespaceChars.filterMap (fun c =>
    (pyFind c line).bind (fun p => if 0 < p then some p else none))

/-- `relaxed_ids(line)`: `pos = min(...)` over `relaxedCands`; `min` of
an empty collection raises `ValueError`, modelled by `none`.  Returns
`(sequence, id)` like the source. -/
def relaxed_ids (line : Str) : Option (Str × Str) :=
  match (relaxedCands line).min? with
  | none => none
  | some pos => some (removeWhitespace (line.drop pos), line.take pos)

/-- Position `p` holds a whitespace character whose first occurrence in
the line `s` is `p`, with `p > 0` — exactly the positions the
`relaxed_ids` generator expression can produce. -/
def freshWsAt (s : Str) (p : Nat) : Prop :=
  0 < p ∧ ∃ c ∈ whitespaceChars, s[p]? = some c ∧ ∀ q < p, s[q]? ≠ some c

instance (s : Str) (p : Nat) : Decidable (freshWsAt s p) := by
  unfold freshWsAt; infer_instance

/-- The number whose decimal digits are those of `v` followed by those
of `n` (used only to state the digit-printing round-trip). -/
def appendDigits (v : Nat) : Nat → Nat
  | 0 => v
  | n + 1 => appendDigits v ((n + 1) / 10) * 10 + (n + 1) % 10
termination_by n => n
decreasing_by exact Nat.div_lt_self (Nat.succ_pos n) (by omega)

/-- `strict_ids(line, id_length)`: identifier is the first `id_length`
characters taken literally; sequence is the remainder with all whitespace
removed.  Returns `(sequence, id)` like the source. -/
def strict_ids (line : Str) (id_length : Nat) : Str × Str :=
  (removeWhitespace (line.drop id_length), line.take id_length)

/-- The strict strategy as a data parser (the reader's default).  It is
total: `strict_ids` cannot fail. -/
def strictParser (line : Str) : Option (Str × Str) :=
  some (strict_ids line 10)

/-- The relaxed strategy as a data parser; `none` models the
`ValueError` escaping from `relaxed_ids`. -/
def relaxedParser (line : Str) : Option (Str × Str) :=
  relaxed_ids line

/-- Errors that can escape a decode pass: a `PhylipFormatError` from the
header, or a `ValueError` from the data parser. -/
inductive DecodeError where
  | format : PhylipFormatError → DecodeError
  | valueError : DecodeError
deriving DecidableEq, Repr

/-- The record loop of `_parse_phylip_raw`: for each line apply the data
parser; yield the record when the parsed sequence length equals the
header's sequence length, else silently skip the line. -/
def parseRecords (seq_len : Int) (dataParser : Str → Option (Str × Str)) :
    List Str → Except DecodeError (List (Str × Str))
  | [] => .ok []
  | line :: rest =>
    match dataParser line with
    | none => .error .valueError
    | some (sequence, id_) =>
      match parseRecords seq_len dataParser rest with
      | .error e => .error e
      | .ok more =>
        if (sequence.length : Int) = seq_len then .ok ((sequence, id_) :: more)
        else .ok more

/-- `_parse_phylip_raw(fh, dataParser)`: pull lines with blank-skipping
on, parse the first as a header with `raise_exc=True`, then stream the
record loop over the remaining lines.  A `next()` on an exhausted source
ends the generator (pre-PEP479 semantics), producing no records. -/
def parse_phylip_raw (lines : List Str)
    (dataParser : Str → Option (Str × Str)) :
    Except DecodeError (List (Str × Str)) :=
  match lineGenerator lines true with
  | [] => .ok []
  | header :: rest =>
    match parse_phylip_header header true with
    | .error e => .error (.format e)
    | .ok none => .ok []
    | .ok (some (_, seq_len)) => parseRecords seq_len dataParser rest

/-- `_phylip_sniffer(fh)`: read one raw line, parse it as a header
(catching the error), read one more raw line (catching exhaustion); any
failure gives a negative match.  The metadata map is always empty. -/
def phylip_sniffer (lines : List Str) : Bool × List (Str × Str) :=
  match lineGenerator lines false with
  | [] => (false, [])
  | header :: rest =>
    match parse_phylip_header header true with
    | .error _ => (false, [])
    | .ok none => (false, [])
    | .ok (some _) =>
      match rest with
      | [] => (false, [])
      | _ :: _ => (true, [])

/-- Decimal digits of `n`, most significant first, by fuel-guarded
division (`fuel ≥ n` suffices since `n / 10 < n` for positive `n`). -/
def natToDigitsAux : Nat → Nat → Str → Str
  | _, 0, acc => acc
  | 0, _ + 1, acc => acc
  | fuel + 1, n + 1, acc =>
    natToDigitsAux fuel ((n + 1) / 10) (digitChar ((n + 1) % 10) :: acc)

/-- Python `'{0:d}'.format(n)` for a natural number. -/
def natToStr (n : Nat) : Str :=
  if n = 0 then ['0'] else natToDigitsAux n n []

/-- Python `str.ljust` / format `'{0:10}'`: left-justify, padding with
spaces up to `width` (longer strings are left untouched). -/
def ljust (s : Str) (width : Nat) : Str :=
  s ++ List.replicate (width - s.length) ' '

/-- Fuel-guarded splitting into chunks of `n` characters. -/
def chunksOfAux (n : Nat) : Nat → Str → List Str
  | _, [] => []
  | 0, _ :: _ => []
  | fuel + 1, s => s.take n :: chunksOfAux n fuel (s.drop n)

/-- The consecutive `n`-character chunks of `s` (the last may be
shorter); `s.length` is enough fuel for any `n ≥ 1`. -/
def chunksOf (n : Nat) (s : Str) : List Str := chunksOfAux n s.length s

/-- Python `sep.join(parts)`. -/
def joinWith (sep : Str) : List Str → Str
  | [] => []
  | [s] => s
  | s :: s' :: rest => s ++ sep ++ joinWith sep (s' :: rest)

/-- Modelled from the spec: `chunk_str` from `skbio.util._misc` is not
part of the reviewed sources.  The spec requires "the residue text split
into 10-character chunks joined by a single space"; here the chunk width
and joining string are parameters, as at the call site. -/
def chunk_str (s : Str) (n : Nat) (sep : Str) : Str :=
  joinWith sep (chunksOf n s)

/-- The external `Alignment'` object (spec §3): an ordered sequence of
`(identifier, residues)` pairs. -/
structure Alignment' where
  seqs : List (Str × Str)
deriving DecidableEq, Repr

/-- `Alignment'.is_empty()`. -/
def Alignment'.is_empty (a : Alignment') : Bool := a.seqs.isEmpty

/-- `Alignment'.sequence_count()`: the number of sequences. -/
def Alignment'.sequence_count (a : Alignment') : Nat := a.seqs.length

/-- `Alignment'.sequence_length()`: the common length of the residue
strings (0 for an empty alignment). -/
def Alignment'.sequence_length (a : Alignment') : Nat :=
  match a.seqs with
  | [] => 0
  | (_, s) :: _ => s.length

/-- `Alignment'.ids()` in iteration order. -/
def Alignment'.ids (a : Alignment') : List Str := a.seqs.map Prod.fst

/-- The header line written by `_alignment_to_phylip`:
`'{0:d} {1:d}\n'.format(sequence_count, sequence_length)`. -/
def header_line (a : Alignment') : Str :=
  natToStr a.sequence_count ++ ' ' :: (natToStr a.sequence_length ++ ['\n'])

/-- One record line written by `_alignment_to_phylip`:
`'{0:10}{1}\n'.format(id, chunk_str(seq, 10, ' '))`. -/
def record_line (p : Str × Str) : Str :=
  ljust p.1 10 ++ chunk_str p.2 10 [' '] ++ ['\n']

/-- `_alignment_to_phylip(obj, fh)` with the output stream made
explicit: the list of strings written to `fh`, in order, paired with the
error raised (if any).  The source performs all three validations before
its first `fh.write`, so a raise happens with nothing written. -/
def alignment_to_phylip_writes (a : Alignment') :
    List Str × Option PhylipFormatError :=
  if a.is_empty then ([], some .emptyAlignment)
  else if a.sequence_length = 0 then ([], some .zeroLengthSequences)
  else
    match a.ids.find? (fun id_ => decide (10 < id_.length)) with
    | some id_ => ([], some (.idTooLong id_))
    | none => (header_line a :: a.seqs.map record_line, none)

/-- The full text produced by a successful encode (concatenation of the
writes), or the error raised. -/
def alignment_to_phylip (a : Alignment') : Except PhylipFormatError Str :=
  match alignment_to_phylip_writes a with
  | (writes, none) => .ok writes.flatten
  | (_, some e) => .error e

/-- Helper for `linesOfText`: accumulates the current line in reverse. -/
def linesOfTextAux : Str → Str → List Str
  | [], acc => if acc.isEmpty then [] else [acc.reverse]
  | c :: rest, acc =>
    if c = '\n' then acc.reverse :: linesOfTextAux rest []
    else linesOfTextAux rest (c :: acc)

/-- Splits a text into its lines, each without the terminating newline;
a final newline produces no extra empty line (Python file iteration
followed by terminator stripping). -/
def linesOfText (text : Str) : List Str := linesOfTextAux text []

/-! ### Claim C3: header parsing -/

/-- C3.  Header parsing: in raising mode `_parse_phylip_header` fails
with a `PhylipFormatError` exactly when splitting the line on runs of
whitespace does not yield two tokens or one of them does not parse as an
integer; on well-formed input it returns the two integers; in probe mode
the same malformed inputs yield the sentinel `none` instead of an
error. -/
theorem header_parse_characterization (h : Str) :
    ((∃ e, parse_phylip_header h true = Except.error e) ↔
      ((pySplit h).length ≠ 2 ∨ ∃ t ∈ pySplit h, pyInt t = none)) ∧
    (∀ a b x y, pySplit h = [a, b] → pyInt a = some x → pyInt b = some y →
      parse_phylip_header h true = Except.ok (some (x, y))) ∧
    (∀ e, parse_phylip_header h true = Except.error e →
      parse_phylip_header h false = Except.ok none) ∧
    (∀ r, parse_phylip_header h true = Except.ok (some r) →
      parse_phylip_header h false = Except.ok (some r)) := by
  rcases hs : pySplit h with _ | ⟨a, _ | ⟨b, _ | ⟨c, rest⟩⟩⟩
  · simp [parse_phylip_header, hs]
  · simp [parse_phylip_header, hs]
  · rcases hx : pyInt a with _ | x <;> rcases hy : pyInt b with _ | y <;>
      simp [parse_phylip_header, hs, hx, hy]
    · rintro a' b' x y rfl rfl hx' hy'
      rw [hx] at hx'; cases hx'
    · rintro a' b' x y rfl rfl hx' hy'
      rw [hx] at hx'; cases hx'
    · rintro a' b' x y rfl rfl hx' hy'
      rw [hy] at hy'; cases hy'
    · rintro a' b' x' y' rfl rfl hx' hy'
      rw [hx] at hx'; rw [hy] at hy'
      cases hx'; cases hy'; exact ⟨rfl, rfl⟩
  · simp [parse_phylip_header, hs]

/-- Witness for C3 at the header `5 42`. -/
theorem header_parse_characterization_witness :
    parse_phylip_header ['5', ' ', '4', '2'] true = Except.ok (some (5, 42)) :=
  (header_parse_characterization ['5', ' ', '4', '2']).2.1
    ['5'] ['4', '2'] 5 42 (by rfl) (by rfl) (by rfl)

/-! ### Claim C7: the sniffer -/

/-- C7.  The sniffer inspects at most the first two lines, returns a
positive match exactly when the first line parses as a two-integer header
and a second line exists (with no validation of its content), and always
returns an empty metadata map.  It is a total function: no error
escapes. -/
theorem sniffer_characterization (lines : List Str) :
    phylip_sniffer lines = phylip_sniffer (lines.take 2) ∧
    ((phylip_sniffer lines).1 = true ↔
      ∃ h rest, lines = h :: rest ∧ rest ≠ [] ∧
        ∃ v, parse_phylip_header h true = Except.ok (some v)) ∧
    (phylip_sniffer lines).2 = [] := by
  rcases lines with _ | ⟨h, _ | ⟨l2, rest2⟩⟩
  · simp [phylip_sniffer, lineGenerator]
  · rcases hp : parse_phylip_header h true with e | (_ | v) <;>
      simp [phylip_sniffer, lineGenerator, hp]
  · rcases hp : parse_phylip_header h true with e | (_ | v)
    · simp [phylip_sniffer, lineGenerator, hp]
    · simp [phylip_sniffer, lineGenerator, hp]
    · simp [phylip_sniffer, lineGenerator, hp]
      exact ⟨h, l2 :: rest2, ⟨rfl, rfl⟩, by simp, v.1, v.2, by simpa using hp⟩

/-! ### Claim C5: encoder failure conditions and atomicity -/

/-- C5.  The encoder fails exactly when the alignment is empty, its
sequence length is zero, or some identifier exceeds 10 characters; and
whenever it fails, no write has been performed on the output stream. -/
theorem encoder_error_iff_and_atomic (a : Alignment') :
    ((alignment_to_phylip_writes a).2.isSome = true ↔
      (a.is_empty = true ∨ a.sequence_length = 0 ∨
        ∃ i ∈ a.ids, 10 < i.length)) ∧
    (∀ e, (alignment_to_phylip_writes a).2 = some e →
      (alignment_to_phylip_writes a).1 = []) := by
  rcases h1 : a.is_empty with _ | _
  · by_cases h2 : a.sequence_length = 0
    · simp [alignment_to_phylip_writes, h1, h2]
    · rcases hf : a.ids.find? (fun i => decide (10 < i.length)) with _ | i
      · have hall := List.find?_eq_none.mp hf
        have hnone : ¬∃ i ∈ a.ids, 10 < i.length := by
          rintro ⟨i, hi, hlen⟩
          exact absurd hlen (by simpa using hall i hi)
        simp [alignment_to_phylip_writes, h1, h2, hf, hnone]
      · have hp : 10 < i.length := by simpa using List.find?_some hf
        have hm : i ∈ a.ids := List.mem_of_find?_eq_some hf
        simp [alignment_to_phylip_writes, h1, h2, hf]
        exact ⟨i, hm, hp⟩
  · simp [alignment_to_phylip_writes, h1]

/-- Witness for C5 at the empty alignment: encoding fails and writes
nothing. -/
theorem encoder_error_iff_and_atomic_witness :
    (alignment_to_phylip_writes ⟨[]⟩).2.isSome = true ∧
    (alignment_to_phylip_writes ⟨[]⟩).1 = [] :=
  ⟨(encoder_error_iff_and_atomic ⟨[]⟩).1.mpr (Or.inl (by rfl)),
   (encoder_error_iff_and_atomic ⟨[]⟩).2 PhylipFormatError.emptyAlignment (by rfl)⟩

/-! ### Decoder lemmas shared by several claims -/

/-- When the data parser is total on the given lines, the record loop
never errors and yields exactly the records whose parsed sequence length
matches the header's. -/
theorem parseRecords_eq_filterMap (L : Int) (p : Str → Option (Str × Str)) :
    ∀ ls : List Str, (∀ l ∈ ls, (p l).isSome) →
      parseRecords L p ls = Except.ok (ls.filterMap (fun l =>
        (p l).bind (fun r =>
          if (r.1.length : Int) = L then some r else none))) := by
  intro ls
  induction ls with
  | nil => intro _; rfl
  | cons l ls ih =>
    intro hp
    have hind := ih (fun x hx => hp x (List.mem_cons_of_mem _ hx))
    rcases hr : p l with _ | ⟨s, i⟩
    · exact absurd (hp l (List.mem_cons_self _ _)) (by simp [hr])
    · by_cases hL : (s.length : Int) = L
      · simp [parseRecords, hr, hind, List.filterMap_cons, hL]
      · simp [parseRecords, hr, hind, List.filterMap_cons, hL]

/-- Splitting a string of nothing but whitespace yields no tokens. -/
theorem pySplitAux_blank : ∀ s : Str, (∀ c ∈ s, c ∈ whitespaceChars) →
    pySplitAux s [] = [] := by
  intro s
  induction s with
  | nil => intro _; rfl
  | cons c rest ih =>
    intro h
    have hc : c ∈ whitespaceChars := h c (List.mem_cons_self _ _)
    simp only [pySplitAux, if_pos hc, List.isEmpty_nil, if_true]
    exact ih (fun x hx => h x (List.mem_cons_of_mem _ hx))

/-- A line that parses as a header is not blank. -/
theorem header_ok_not_blank {h : Str} {r : Int × Int}
    (hh : parse_phylip_header h true = Except.ok (some r)) :
    isBlank h = false := by
  rcases hb : isBlank h
  · rfl
  · have hall : ∀ c ∈ h, c ∈ whitespaceChars := by
      have := List.all_eq_true.mp hb
      intro c hc
      simpa using this c hc
    have h0 : pySplit h = [] := pySplitAux_blank h hall
    rw [show pySplit h = pySplitAux h [] from rfl] at h0
    simp [parse_phylip_header, pySplit, h0] at hh

/-- Core decode lemma: with a well-formed header line on top and a total
data parser, a decode pass succeeds and yields exactly the records from
the non-blank lines whose parsed sequence matches the header length; the
declared row count plays no role. -/
theorem parse_phylip_raw_records (h : Str) (c L : Int) (rest : List Str)
    (p : Str → Option (Str × Str)) (hp : ∀ l, (p l).isSome)
    (hh : parse_phylip_header h true = Except.ok (some (c, L))) :
    parse_phylip_raw (h :: rest) p =
      Except.ok ((lineGenerator rest true).filterMap (fun l =>
        (p l).bind (fun r =>
          if (r.1.length : Int) = L then some r else none))) := by
  have hb : isBlank h = false := header_ok_not_blank hh
  have hline : lineGenerator (h :: rest) true = h :: lineGenerator rest true := by
    simp [lineGenerator, List.filter_cons, hb]
  simp only [parse_phylip_raw, hline, hh]
  exact parseRecords_eq_filterMap L p _ (fun l _ => hp l)

/-! ### Claim C4: mismatched-length lines are silently skipped -/

/-- C4.  A line whose parsed residues do not match the header's sequence
length yields no record and no error (deleting it from the stream does
not change the decode result); and the spec's concrete example — header
`2 5` with a 5-residue line and a 7-residue line — decodes to exactly
one record under the strict strategy. -/
theorem mismatched_length_skip :
    (∀ (L : Int) (p : Str → Option (Str × Str)) (pre post : List Str)
        (l s i : Str), p l = some (s, i) → (s.length : Int) ≠ L →
      parseRecords L p (pre ++ l :: post) = parseRecords L p (pre ++ post)) ∧
    parse_phylip_raw
      [['2', ' ', '5'],
       ['a', ' ', ' ', ' ', ' ', ' ', ' ', ' ', ' ', ' ', 'A', 'C', 'C', 'G', 'T'],
       ['b', ' ', ' ', ' ', ' ', ' ', ' ', ' ', ' ', ' ',
        'A', 'C', 'C', 'G', 'T', 'T', 'T']] strictParser =
      Except.ok [(['A', 'C', 'C', 'G', 'T'],
        ['a', ' ', ' ', ' ', ' ', ' ', ' ', ' ', ' ', ' '])] := by
  constructor
  · intro L p pre post l s i hl hne
    induction pre with
    | nil =>
      rcases hrec : parseRecords L p post with e | more <;>
        simp [parseRecords, hl, hrec, hne]
    | cons q pre ih =>
      rcases hq : p q with _ | ⟨s', i'⟩ <;>
        simp [parseRecords, hq, ih]
  · rfl

/-- Witness for C4: the over-long line alone is dropped without error. -/
theorem mismatched_length_skip_witness :
    strictParser ['b', ' ', ' ', ' ', ' ', ' ', ' ', ' ', ' ', ' ',
        'A', 'C', 'C', 'G', 'T', 'T', 'T'] =
      some (['A', 'C', 'C', 'G', 'T', 'T', 'T'],
        ['b', ' ', ' ', ' ', ' ', ' ', ' ', ' ', ' ', ' ']) ∧
    parseRecords 5 strictParser
        [['b', ' ', ' ', ' ', ' ', ' ', ' ', ' ', ' ', ' ',
          'A', 'C', 'C', 'G', 'T', 'T', 'T']] =
      parseRecords 5 strictParser [] :=
  ⟨by rfl,
   mismatched_length_skip.1 5 strictParser [] []
     ['b', ' ', ' ', ' ', ' ', ' ', ' ', ' ', ' ', ' ',
      'A', 'C', 'C', 'G', 'T', 'T', 'T']
     ['A', 'C', 'C', 'G', 'T', 'T', 'T']
     ['b', ' ', ' ', ' ', ' ', ' ', ' ', ' ', ' ', ' ']
     (by rfl) (by decide)⟩

/-! ### Claim C8: no row-count enforcement -/

/-- C8.  With any well-formed header, the decoder yields one record per
matching non-blank line until the stream is exhausted; the result never
depends on the header's declared sequence count, so streams with more or
fewer matching lines than declared decode without error. -/
theorem decoder_no_rowcount (h : Str) (c L : Int) (rest : List Str)
    (p : Str → Option (Str × Str)) (hp : ∀ l, (p l).isSome)
    (hh : parse_phylip_header h true = Except.ok (some (c, L))) :
    parse_phylip_raw (h :: rest) p =
      Except.ok ((lineGenerator rest true).filterMap (fun l =>
        (p l).bind (fun r =>
          if (r.1.length : Int) = L then some r else none))) :=
  parse_phylip_raw_records h c L rest p hp hh

/-- Witness for C8: a header declaring 2 rows decodes 3 matching lines
without error. -/
theorem decoder_no_rowcount_witness :
    parse_phylip_raw
      [['2', ' ', '3'],
       ['a', ' ', ' ', ' ', ' ', ' ', ' ', ' ', ' ', ' ', 'A', 'C', 'G'],
       ['b', ' ', ' ', ' ', ' ', ' ', ' ', ' ', ' ', ' ', 'C', 'C', 'G'],
       ['c', ' ', ' ', ' ', ' ', ' ', ' ', ' ', ' ', ' ', 'T', 'T', 'T']]
      strictParser =
      Except.ok [(['A', 'C', 'G'], ['a', ' ', ' ', ' ', ' ', ' ', ' ', ' ', ' ', ' ']),
        (['C', 'C', 'G'], ['b', ' ', ' ', ' ', ' ', ' ', ' ', ' ', ' ', ' ']),
        (['T', 'T', 'T'], ['c', ' ', ' ', ' ', ' ', ' ', ' ', ' ', ' ', ' '])] := by
  have := decoder_no_rowcount ['2', ' ', '3'] 2 3
    [['a', ' ', ' ', ' ', ' ', ' ', ' ', ' ', ' ', ' ', 'A', 'C', 'G'],
     ['b', ' ', ' ', ' ', ' ', ' ', ' ', ' ', ' ', ' ', 'C', 'C', 'G'],
     ['c', ' ', ' ', ' ', ' ', ' ', ' ', ' ', ' ', ' ', 'T', 'T', 'T']]
    strictParser (fun l => by simp [strictParser]) (by rfl)
  exact this.trans (by rfl)

/-! ### Claim C9: no positivity check on the header integers -/

/-- C9.  The header parser accepts non-positive integers in both modes
(`0 0`, `-1 5`), and a decode pass under a `0 0` header proceeds without
error, yielding a record for exactly the non-blank lines whose residues
strip to the empty string. -/
theorem header_no_positivity_check :
    parse_phylip_header ['0', ' ', '0'] true = Except.ok (some (0, 0)) ∧
    parse_phylip_header ['0', ' ', '0'] false = Except.ok (some (0, 0)) ∧
    parse_phylip_header ['-', '1', ' ', '5'] true = Except.ok (some (-1, 5)) ∧
    parse_phylip_header ['-', '1', ' ', '5'] false = Except.ok (some (-1, 5)) ∧
    ∀ rest : List Str,
      parse_phylip_raw (['0', ' ', '0'] :: rest) strictParser =
        Except.ok ((lineGenerator rest true).filterMap (fun l =>
          if removeWhitespace (l.drop 10) = []
          then some (([] : Str), l.take 10) else none)) := by
  refine ⟨rfl, rfl, rfl, rfl, fun rest => ?_⟩
  have hbase := parse_phylip_raw_records ['0', ' ', '0'] 0 0 rest strictParser
    (fun l => by simp [strictParser]) (by rfl)
  have hfun : ∀ l : Str,
      (strictParser l).bind (fun r =>
        if (r.1.length : Int) = 0 then some r else none) =
      (if removeWhitespace (l.drop 10) = []
       then some (([] : Str), l.take 10) else none) := by
    intro l
    by_cases hc : removeWhitespace (l.drop 10) = []
    · simp [strictParser, strict_ids, hc]
    · have hlen : ((removeWhitespace (l.drop 10)).length : Int) ≠ 0 := by
        intro hz
        exact hc (List.length_eq_zero.mp (by exact_mod_cast hz))
      simp [strictParser, strict_ids, hc, hlen]
  rw [hbase]
  exact congrArg Except.ok (List.filterMap_congr (fun l _ => hfun l))

/-! ### Claim C10: blank-line skipping in decode, none in sniffing -/

/-- C10.  The decoder skips blank lines anywhere in the stream (deleting
a blank line never changes the decode result), while the sniffer reads
raw lines: a stream whose first line is blank and whose second line is a
valid header decodes successfully but sniffs negative. -/
theorem blank_skip_decode_vs_sniffer :
    (∀ (p : Str → Option (Str × Str)) (pre post : List Str) (b : Str),
      isBlank b = true →
      parse_phylip_raw (pre ++ b :: post) p = parse_phylip_raw (pre ++ post) p) ∧
    phylip_sniffer
      [[], ['1', ' ', '5'],
       ['a', ' ', ' ', ' ', ' ', ' ', ' ', ' ', ' ', ' ', 'A', 'C', 'C', 'G', 'T']] =
      (false, []) ∧
    parse_phylip_raw
      [[], ['1', ' ', '5'],
       ['a', ' ', ' ', ' ', ' ', ' ', ' ', ' ', ' ', ' ', 'A', 'C', 'C', 'G', 'T']]
      strictParser =
      Except.ok [(['A', 'C', 'C', 'G', 'T'],
        ['a', ' ', ' ', ' ', ' ', ' ', ' ', ' ', ' ', ' '])] := by
  refine ⟨?_, rfl, rfl⟩
  intro p pre post b hb
  have hline : lineGenerator (pre ++ b :: post) true =
      lineGenerator (pre ++ post) true := by
    simp [lineGenerator, List.filter_append, List.filter_cons, hb]
  simp only [parse_phylip_raw, hline]

/-- Witness for C10: deleting a leading blank line leaves the decode
result unchanged. -/
theorem blank_skip_decode_vs_sniffer_witness :
    isBlank [' '] = true ∧
    parse_phylip_raw
      [[' '], ['1', ' ', '5'],
       ['a', ' ', ' ', ' ', ' ', ' ', ' ', ' ', ' ', ' ', 'A', 'C', 'C', 'G', 'T']]
      strictParser =
    parse_phylip_raw
      [['1', ' ', '5'],
       ['a', ' ', ' ', ' ', ' ', ' ', ' ', ' ', ' ', ' ', 'A', 'C', 'C', 'G', 'T']]
      strictParser :=
  ⟨by decide,
   blank_skip_decode_vs_sniffer.1 strictParser []
     [['1', ' ', '5'],
      ['a', ' ', ' ', ' ', ' ', ' ', ' ', ' ', ' ', ' ', 'A', 'C', 'C', 'G', 'T']]
     [' '] (by decide)⟩

/-! ### Claim C2: the relaxed identifier strategy -/

/-- `line.find(c) = p` exactly when `p` is the first occurrence of `c`. -/
theorem pyFind_spec (c : Char) : ∀ (l : Str) (p : Nat),
    pyFind c l = some p ↔ (l[p]? = some c ∧ ∀ q < p, l[q]? ≠ some c) := by
  intro l
  induction l with
  | nil => intro p; simp [pyFind]
  | cons x rest ih =>
    intro p
    cases p with
    | zero =>
      by_cases hx : x = c
      · simp [pyFind, hx]
      · simp [pyFind, hx]
    | succ n =>
      by_cases hx : x = c
      · constructor
        · intro h
          rw [pyFind, if_pos hx] at h
          cases h
        · rintro ⟨hp, hall⟩
          exact absurd (show (x :: rest)[0]? = some c by simp [hx])
            (hall 0 (Nat.succ_pos n))
      · rw [pyFind, if_neg hx]
        constructor
        · intro h
          rcases Option.map_eq_some'.mp h with ⟨m, hm, hmp⟩
          have hn : m = n := by omega
          rw [hn] at hm
          rcases (ih n).mp hm with ⟨h1, h2⟩
          refine ⟨by simpa using h1, ?_⟩
          intro q hq
          cases q with
          | zero => simp [hx]
          | succ q' =>
            have hq' : q' < n := by omega
            simpa using h2 q' hq'
        · rintro ⟨hp, hall⟩
          have h1 : rest[n]? = some c := by simpa using hp
          have h2 : ∀ q < n, rest[q]? ≠ some c := by
            intro q hq
            have := hall (q + 1) (by omega)
            simpa using this
          rw [(ih n).mpr ⟨h1, h2⟩]
          rfl

/-- The candidate positions of `relaxed_ids` are exactly the positions
of whitespace characters making their first appearance after index 0. -/
theorem mem_relaxedCands (s : Str) (p : Nat) :
    p ∈ relaxedCands s ↔ freshWsAt s p := by
  unfold relaxedCands freshWsAt
  rw [List.mem_filterMap]
  constructor
  · rintro ⟨c, hc, hf⟩
    rcases hpf : pyFind c s with _ | p' <;> rw [hpf] at hf
    · cases hf
    · by_cases h0 : 0 < p'
      · rw [Option.some_bind, if_pos h0] at hf
        cases hf
        rcases (pyFind_spec c s p).mp hpf with ⟨h1, h2⟩
        exact ⟨h0, c, hc, h1, h2⟩
      · rw [Option.some_bind, if_neg h0] at hf
        cases hf
  · rintro ⟨h0, c, hc, hp, hall⟩
    refine ⟨c, hc, ?_⟩
    rw [(pyFind_spec c s p).mpr ⟨hp, hall⟩, Option.some_bind, if_pos h0]

/-- `List.min?` on naturals returns the least element. -/
theorem nat_min?_eq_some_iff {a : Nat} {xs : List Nat} :
    xs.min? = some a ↔ a ∈ xs ∧ ∀ b ∈ xs, a ≤ b :=
  @List.min?_eq_some_iff Nat a _ _ ⟨fun h h' => Nat.le_antisymm h h'⟩
    (fun _ => Nat.le_refl _) (fun x y => min_choice x y)
    (fun _ _ _ => le_min_iff) xs

/-- C2 counterexample: the line `" a b"` has a whitespace character at
position 2 > 0, yet `relaxed_ids` raises `ValueError` (minimum of an
empty sequence, since the space's *first* occurrence is position 0)
instead of returning the split the claim describes. -/
theorem relaxed_ids_claim_counterexample :
    ([' ', 'a', ' ', 'b'] : Str)[2]? = some ' ' ∧
    ' ' ∈ whitespaceChars ∧ 0 < 2 ∧
    relaxed_ids [' ', 'a', ' ', 'b'] = none := by decide

/-- C2 amended.  For every line having a whitespace character whose
*first occurrence* is at a position strictly greater than 0,
`relaxed_ids` splits at the least such first-occurrence position `p`:
identifier = the substring before `p`, residues = the substring from `p`
on with all whitespace removed.  If no whitespace character has its
first occurrence after position 0 the call fails. -/
theorem relaxed_ids_characterization (s : Str) :
    (∀ p, freshWsAt s p → (∀ q, q < p → ¬ freshWsAt s q) →
      relaxed_ids s = some (removeWhitespace (s.drop p), s.take p)) ∧
    ((∀ p, ¬ freshWsAt s p) → relaxed_ids s = none) := by
  constructor
  · intro p hp hmin
    have hmem : p ∈ relaxedCands s := (mem_relaxedCands s p).mpr hp
    have hle : ∀ b ∈ relaxedCands s, p ≤ b := by
      intro b hb
      have hfb := (mem_relaxedCands s b).mp hb
      by_contra hlt
      exact hmin b (by omega) hfb
    have hm : (relaxedCands s).min? = some p :=
      nat_min?_eq_some_iff.mpr ⟨hmem, hle⟩
    simp [relaxed_ids, hm]
  · intro hnone
    have hnil : relaxedCands s = [] := by
      cases hc : relaxedCands s with
      | nil => rfl
      | cons x xs =>
        have hx : x ∈ relaxedCands s := by
          rw [hc]; exact List.mem_cons_self x xs
        exact absurd ((mem_relaxedCands s x).mp hx) (hnone x)
    simp [relaxed_ids, hnil]

/-- Witness for C2 amended at the line `"ab cd"`, split position 2. -/
theorem relaxed_ids_characterization_witness :
    freshWsAt ['a', 'b', ' ', 'c', 'd'] 2 ∧
    relaxed_ids ['a', 'b', ' ', 'c', 'd'] = some (['c', 'd'], ['a', 'b']) :=
  ⟨by decide,
   (relaxed_ids_characterization ['a', 'b', ' ', 'c', 'd']).1 2
     (by decide) (by decide)⟩

/-! ### Decimal printing lemmas (for the encoder's header line) -/

/-- Decimal digit characters evaluate to their value and are neither
whitespace nor a sign character. -/
theorem digitChar_spec : ∀ d < 10,
    digitVal (digitChar d) = some d ∧ digitChar d ∉ whitespaceChars ∧
    digitChar d ≠ '+' ∧ digitChar d ≠ '-' := by decide

/-- Structure of the digit accumulator: it prepends a non-empty list of
digit characters to `acc` (for positive `n`, with enough fuel). -/
theorem natToDigitsAux_struct : ∀ fuel n acc, n ≤ fuel →
    ∃ pre, natToDigitsAux fuel n acc = pre ++ acc ∧
      (∀ c ∈ pre, ∃ d, d < 10 ∧ c = digitChar d) ∧ (0 < n → pre ≠ []) := by
  intro fuel
  induction fuel with
  | zero =>
    intro n acc hn
    have h0 : n = 0 := Nat.le_zero.mp hn
    subst h0
    exact ⟨[], rfl, by simp, by omega⟩
  | succ fuel ih =>
    intro n acc hn
    cases n with
    | zero => exact ⟨[], rfl, by simp, by omega⟩
    | succ m =>
      have hdiv : (m + 1) / 10 ≤ fuel := by
        have := Nat.div_lt_self (Nat.succ_pos m) (show 1 < 10 by omega)
        omega
      rcases ih ((m + 1) / 10) (digitChar ((m + 1) % 10) :: acc) hdiv with
        ⟨pre, heq, hdig, _⟩
      refine ⟨pre ++ [digitChar ((m + 1) % 10)], ?_, ?_, ?_⟩
      · show natToDigitsAux fuel ((m + 1) / 10)
          (digitChar ((m + 1) % 10) :: acc) = _
        rw [heq]
        simp
      · intro c hc
        rcases List.mem_append.mp hc with hc | hc
        · exact hdig c hc
        · have : c = digitChar ((m + 1) % 10) := by simpa using hc
          exact ⟨(m + 1) % 10, Nat.mod_lt _ (by omega), this⟩
      · intro _
        simp

/-- Appending the digits of `n` to the value 0 reconstructs `n`. -/
theorem appendDigits_zero : ∀ n, appendDigits 0 n = n := by
  intro n
  induction n using Nat.strong_induction_on with
  | _ n ih =>
    cases n with
    | zero => simp [appendDigits]
    | succ m =>
      have hdiv : (m + 1) / 10 < m + 1 :=
        Nat.div_lt_self (Nat.succ_pos m) (by omega)
      rw [appendDigits, ih _ hdiv]
      omega

/-- Reading back the characters produced by the digit accumulator
appends the digits of `n` to the running value. -/
theorem parseDigitsAux_natToDigitsAux : ∀ fuel n acc v, n ≤ fuel →
    parseDigitsAux (natToDigitsAux fuel n acc) v =
      parseDigitsAux acc (appendDigits v n) := by
  intro fuel
  induction fuel with
  | zero =>
    intro n acc v hn
    have h0 : n = 0 := Nat.le_zero.mp hn
    subst h0
    simp [natToDigitsAux, appendDigits]
  | succ fuel ih =>
    intro n acc v hn
    cases n with
    | zero => simp [natToDigitsAux, appendDigits]
    | succ m =>
      have hdiv : (m + 1) / 10 ≤ fuel := by
        have := Nat.div_lt_self (Nat.succ_pos m) (show 1 < 10 by omega)
        omega
      have hstep : natToDigitsAux (fuel + 1) (m + 1) acc =
          natToDigitsAux fuel ((m + 1) / 10)
            (digitChar ((m + 1) % 10) :: acc) := rfl
      rw [hstep, ih _ _ v hdiv]
      have hd : digitVal (digitChar ((m + 1) % 10)) = some ((m + 1) % 10) :=
        (digitChar_spec _ (Nat.mod_lt _ (by omega))).1
      rw [show parseDigitsAux (digitChar ((m + 1) % 10) :: acc)
            (appendDigits v ((m + 1) / 10)) =
          parseDigitsAux acc
            (appendDigits v ((m + 1) / 10) * 10 + (m + 1) % 10) from by
        simp [parseDigitsAux, hd]]
      rw [show appendDigits v (m + 1) =
          appendDigits v ((m + 1) / 10) * 10 + (m + 1) % 10 from by
        rw [appendDigits]]

/-- The decimal printer produces a non-empty all-digit string that
`int()` reads back as the same number. -/
theorem natToStr_spec (n : Nat) :
    natToStr n ≠ [] ∧ (∀ c ∈ natToStr n, ∃ d, d < 10 ∧ c = digitChar d) ∧
    pyInt (natToStr n) = some (n : Int) := by
  by_cases h0 : n = 0
  · subst h0
    refine ⟨by decide, ?_, by decide⟩
    intro c hc
    have : c = '0' := by simpa [natToStr] using hc
    exact ⟨0, by omega, by rw [this]; rfl⟩
  · have hform : natToStr n = natToDigitsAux n n [] := by
      simp [natToStr, h0]
    rcases natToDigitsAux_struct n n [] (le_refl n) with ⟨pre, heq, hdig, hne⟩
    rw [List.append_nil] at heq
    have hne' : natToStr n ≠ [] := by
      rw [hform, heq]
      exact hne (Nat.pos_of_ne_zero h0)
    have hdig' : ∀ c ∈ natToStr n, ∃ d, d < 10 ∧ c = digitChar d := by
      intro c hc
      rw [hform, heq] at hc
      exact hdig c hc
    refine ⟨hne', hdig', ?_⟩
    have hparse : parseDigits (natToStr n) = some n := by
      unfold parseDigits
      rw [if_neg (by simpa [List.isEmpty_iff] using hne')]
      rw [hform, parseDigitsAux_natToDigitsAux n n [] 0 (le_refl n)]
      simp [parseDigitsAux, appendDigits_zero]
    rcases List.exists_cons_of_ne_nil hne' with ⟨c, rest, hcons⟩
    have hcd : ∃ d, d < 10 ∧ c = digitChar d := by
      apply hdig'
      rw [hcons]
      exact List.mem_cons_self _ _
    rcases hcd with ⟨d, hd, rfl⟩
    have hplus : digitChar d ≠ '+' := (digitChar_spec d hd).2.2.1
    have hminus : digitChar d ≠ '-' := (digitChar_spec d hd).2.2.2
    rw [hcons, pyInt, if_neg hplus, if_neg hminus, ← hcons, hparse]
    rfl

/-! ### Splitting the encoder's header line -/

/-- Consuming a whitespace-free prefix just accumulates it in reverse. -/
theorem pySplitAux_no_ws : ∀ (s rest acc : Str),
    (∀ c ∈ s, c ∉ whitespaceChars) →
    pySplitAux (s ++ rest) acc = pySplitAux rest (s.reverse ++ acc) := by
  intro s
  induction s with
  | nil => intro rest acc _; simp
  | cons c cs ih =>
    intro rest acc h
    have hc : c ∉ whitespaceChars := h c (List.mem_cons_self _ _)
    show pySplitAux (c :: (cs ++ rest)) acc = _
    rw [pySplitAux, if_neg hc, ih rest (c :: acc)
      (fun x hx => h x (List.mem_cons_of_mem _ hx))]
    simp

/-- Splitting two whitespace-free tokens separated by one space. -/
theorem pySplit_pair (d1 d2 : Str) (h1 : d1 ≠ []) (h2 : d2 ≠ [])
    (hw1 : ∀ c ∈ d1, c ∉ whitespaceChars)
    (hw2 : ∀ c ∈ d2, c ∉ whitespaceChars) :
    pySplit (d1 ++ ' ' :: d2) = [d1, d2] := by
  unfold pySplit
  rw [pySplitAux_no_ws d1 (' ' :: d2) [] hw1]
  have hsp : (' ' : Char) ∈ whitespaceChars := by decide
  have hr1 : (d1.reverse ++ []).isEmpty = false := by
    simp [List.isEmpty_iff, h1]
  rw [pySplitAux, if_pos hsp, hr1]
  simp only [Bool.false_eq_true, if_false]
  have htail : pySplitAux d2 [] = [d2] := by
    have hd2 : pySplitAux (d2 ++ []) [] = pySplitAux [] (d2.reverse ++ []) :=
      pySplitAux_no_ws d2 [] [] hw2
    rw [List.append_nil] at hd2
    rw [hd2, pySplitAux]
    have : (d2.reverse ++ []).isEmpty = false := by
      simp [List.isEmpty_iff, h2]
    rw [this]
    simp
  rw [htail]
  simp

/-- The header line the encoder writes (without its newline) parses back
to the same two integers in raising mode. -/
theorem header_line_parses (n m : Nat) :
    parse_phylip_header (natToStr n ++ ' ' :: natToStr m) true =
      Except.ok (some ((n : Int), (m : Int))) := by
  rcases natToStr_spec n with ⟨hn1, hn2, hn3⟩
  rcases natToStr_spec m with ⟨hm1, hm2, hm3⟩
  have hwn : ∀ c ∈ natToStr n, c ∉ whitespaceChars := by
    intro c hc
    rcases hn2 c hc with ⟨d, hd, rfl⟩
    exact (digitChar_spec d hd).2.1
  have hwm : ∀ c ∈ natToStr m, c ∉ whitespaceChars := by
    intro c hc
    rcases hm2 c hc with ⟨d, hd, rfl⟩
    exact (digitChar_spec d hd).2.1
  have hsplit : pySplit (natToStr n ++ ' ' :: natToStr m) =
      [natToStr n, natToStr m] := pySplit_pair _ _ hn1 hm1 hwn hwm
  simp [parse_phylip_header, hsplit, hn3, hm3]

/-! ### Chunking, joining, padding and line-splitting lemmas -/

/-- With enough fuel, concatenating the chunks restores the string. -/
theorem chunksOfAux_flatten (n : Nat) (hn : 0 < n) : ∀ fuel s,
    s.length ≤ fuel → (chunksOfAux n fuel s).flatten = s := by
  intro fuel
  induction fuel with
  | zero =>
    intro s hs
    have : s = [] := List.length_eq_zero.mp (Nat.le_zero.mp hs)
    subst this
    rfl
  | succ fuel ih =>
    intro s hs
    cases s with
    | nil => rfl
    | cons x xs =>
      show ((x :: xs).take n :: chunksOfAux n fuel ((x :: xs).drop n)).flatten = _
      rw [List.flatten_cons, ih ((x :: xs).drop n)
        (by simp only [List.length_drop, List.length_cons] at hs ⊢; omega)]
      exact List.take_append_drop n (x :: xs)

/-- Every chunk is non-empty and at most `n` characters long. -/
theorem chunksOfAux_mem (n : Nat) (hn : 0 < n) : ∀ fuel s ch,
    ch ∈ chunksOfAux n fuel s → ch.length ≤ n ∧ ch ≠ [] := by
  intro fuel
  induction fuel with
  | zero =>
    intro s ch hch
    cases s <;> simp [chunksOfAux] at hch
  | succ fuel ih =>
    intro s ch hch
    cases s with
    | nil => simp [chunksOfAux] at hch
    | cons x xs =>
      rcases List.mem_cons.mp hch with h | h
      · subst h
        constructor
        · exact List.length_take_le n (x :: xs)
        · cases n with
          | zero => exact absurd hn (by omega)
          | succ k => simp
      · exact ih _ ch h

/-- Concatenating the chunks of `s` restores `s`. -/
theorem chunksOf_flatten (n : Nat) (hn : 0 < n) (s : Str) :
    (chunksOf n s).flatten = s :=
  chunksOfAux_flatten n hn s.length s (le_refl _)

/-- Membership in a `joinWith`: separator characters or chunk characters. -/
theorem mem_joinWith (sep : Str) : ∀ (ls : List Str) (c : Char),
    c ∈ joinWith sep ls → c ∈ sep ∨ ∃ l ∈ ls, c ∈ l := by
  intro ls
  induction ls with
  | nil => intro c hc; cases hc
  | cons l ls ih =>
    intro c hc
    cases ls with
    | nil =>
      exact Or.inr ⟨l, List.mem_cons_self _ _, hc⟩
    | cons l' ls' =>
      rcases List.mem_append.mp hc with h | h
      · rcases List.mem_append.mp h with h | h
        · exact Or.inr ⟨l, List.mem_cons_self _ _, h⟩
        · exact Or.inl h
      · rcases ih c h with h | ⟨x, hx, hcx⟩
        · exact Or.inl h
        · exact Or.inr ⟨x, List.mem_cons_of_mem _ hx, hcx⟩

/-- A character of any chunk occurs in the `joinWith`. -/
theorem mem_joinWith_of_mem (sep : Str) : ∀ (ls : List Str) (l : Str) (c : Char),
    l ∈ ls → c ∈ l → c ∈ joinWith sep ls := by
  intro ls
  induction ls with
  | nil => intro l c hl _; cases hl
  | cons x ls ih =>
    intro l c hl hc
    cases ls with
    | nil =>
      have : l = x := by simpa using hl
      subst this
      exact hc
    | cons x' ls' =>
      rcases List.mem_cons.mp hl with h | h
      · subst h
        exact List.mem_append.mpr (Or.inl (List.mem_append.mpr (Or.inl hc)))
      · exact List.mem_append.mpr (Or.inr (ih l c h hc))

/-- Removing whitespace from a space-joined list removes the separators
and filters each part. -/
theorem removeWhitespace_joinWith : ∀ ls : List Str,
    removeWhitespace (joinWith [' '] ls) =
      (ls.map removeWhitespace).flatten := by
  intro ls
  induction ls with
  | nil => rfl
  | cons l ls ih =>
    cases ls with
    | nil => simp [joinWith, removeWhitespace]
    | cons l' ls' =>
      show removeWhitespace (l ++ [' '] ++ joinWith [' '] (l' :: ls')) = _
      simp only [removeWhitespace, List.filter_append] at ih ⊢
      rw [ih]
      simp [removeWhitespace]
      decide

/-- Filtering away whitespace fixes a whitespace-free string. -/
theorem removeWhitespace_eq_self (s : Str)
    (h : ∀ c ∈ s, c ∉ whitespaceChars) : removeWhitespace s = s :=
  List.filter_eq_self.mpr (fun c hc => by simpa using h c hc)

/-- Stripping whitespace from the chunked text restores the original
whitespace-free residue string. -/
theorem removeWhitespace_chunk_str (s : Str)
    (h : ∀ c ∈ s, c ∉ whitespaceChars) :
    removeWhitespace (chunk_str s 10 [' ']) = s := by
  unfold chunk_str
  rw [removeWhitespace_joinWith]
  have hmem : ∀ ch ∈ chunksOf 10 s, ∀ c ∈ ch, c ∉ whitespaceChars := by
    intro ch hch c hc
    apply h
    rw [← chunksOf_flatten 10 (by omega) s]
    exact List.mem_flatten.mpr ⟨ch, hch, hc⟩
  have hfix : (chunksOf 10 s).map removeWhitespace = (chunksOf 10 s).map id :=
    List.map_congr_left (fun ch hch => removeWhitespace_eq_self ch (hmem ch hch))
  rw [hfix, List.map_id]
  exact chunksOf_flatten 10 (by omega) s

/-- Reading one newline-free line off the front of a text. -/
theorem linesOfTextAux_append : ∀ (l rest acc : Str), '\n' ∉ l →
    linesOfTextAux (l ++ '\n' :: rest) acc =
      (acc.reverse ++ l) :: linesOfTextAux rest [] := by
  intro l
  induction l with
  | nil =>
    intro rest acc _
    simp [linesOfTextAux]
  | cons c cs ih =>
    intro rest acc h
    have hc : ¬(c = '\n') := fun hcn => h (hcn ▸ List.mem_cons_self _ _)
    show linesOfTextAux (c :: (cs ++ '\n' :: rest)) acc = _
    rw [linesOfTextAux]
    simp only [if_neg hc]
    rw [ih rest (c :: acc) (fun hx => h (List.mem_cons_of_mem _ hx))]
    simp

/-- A text assembled from newline-terminated, newline-free lines splits
back into exactly those lines. -/
theorem linesOfText_flatten : ∀ ls : List Str, (∀ l ∈ ls, '\n' ∉ l) →
    linesOfText ((ls.map (fun l => l ++ ['\n'])).flatten) = ls := by
  intro ls
  induction ls with
  | nil => intro _; rfl
  | cons l ls ih =>
    intro h
    show linesOfText ((l ++ ['\n']) ++ (ls.map (fun l => l ++ ['\n'])).flatten) = _
    rw [List.append_assoc]
    show linesOfTextAux (l ++ '\n' :: (ls.map (fun l => l ++ ['\n'])).flatten) [] = _
    rw [linesOfTextAux_append l _ [] (h l (List.mem_cons_self _ _))]
    simp only [List.reverse_nil, List.nil_append]
    rw [show linesOfTextAux ((ls.map (fun l => l ++ ['\n'])).flatten) [] =
        linesOfText ((ls.map (fun l => l ++ ['\n'])).flatten) from rfl]
    rw [ih (fun x hx => h x (List.mem_cons_of_mem _ hx))]

/-- Padding a string of length at most `w` reaches exactly length `w`. -/
theorem ljust_length (s : Str) (w : Nat) (h : s.length ≤ w) :
    (ljust s w).length = w := by
  simp [ljust]
  omega

/-- The first 10 characters of a record line are the padded identifier,
the rest is the chunked residue text. -/
theorem take_drop_record (i t : Str) (h : i.length ≤ 10) :
    (ljust i 10 ++ t).take 10 = ljust i 10 ∧
    (ljust i 10 ++ t).drop 10 = t :=
  ⟨List.take_left' (ljust_length _ _ h), List.drop_left' (ljust_length _ _ h)⟩

/-- A record line's content contains no newline when the identifier
contains none and the residues are whitespace-free. -/
theorem record_content_no_newline (i s : Str) (hi : '\n' ∉ i)
    (hs : ∀ c ∈ s, c ∉ whitespaceChars) :
    '\n' ∉ ljust i 10 ++ chunk_str s 10 [' '] := by
  intro hmem
  rcases List.mem_append.mp hmem with h | h
  · rcases List.mem_append.mp h with h | h
    · exact hi h
    · have : ('\n' : Char) = ' ' := List.eq_of_mem_replicate h
      exact absurd this (by decide)
  · unfold chunk_str at h
    rcases mem_joinWith [' '] _ '\n' h with h | ⟨ch, hch, hcch⟩
    · simp at h
    · have hns : '\n' ∈ s := by
        rw [← chunksOf_flatten 10 (by omega) s]
        exact List.mem_flatten.mpr ⟨ch, hch, hcch⟩
      exact hs '\n' hns (by decide)

/-- A record line with non-empty whitespace-free residues is not
blank. -/
theorem record_content_not_blank (i s : Str) (hne : s ≠ [])
    (hs : ∀ c ∈ s, c ∉ whitespaceChars) :
    isBlank (ljust i 10 ++ chunk_str s 10 [' ']) = false := by
  rcases List.exists_cons_of_ne_nil hne with ⟨c, s', hcons⟩
  have hcs : c ∈ s := by rw [hcons]; exact List.mem_cons_self _ _
  have hch : ∃ ch ∈ chunksOf 10 s, c ∈ ch :=
    List.mem_flatten.mp (by rw [chunksOf_flatten 10 (by omega) s]; exact hcs)
  rcases hch with ⟨ch, hch, hcch⟩
  have hcj : c ∈ chunk_str s 10 [' '] :=
    mem_joinWith_of_mem [' '] _ ch c hch hcch
  rcases hb : isBlank (ljust i 10 ++ chunk_str s 10 [' ']) with _ | _
  · rfl
  · have := List.all_eq_true.mp hb c (List.mem_append.mpr (Or.inr hcj))
    exact absurd (show c ∈ whitespaceChars by simpa using this) (hs c hcs)

/-- The header line's content contains no newline. -/
theorem header_content_no_newline (n m : Nat) :
    '\n' ∉ natToStr n ++ ' ' :: natToStr m := by
  intro hmem
  have hnl : ('\n' : Char) ∈ whitespaceChars := by decide
  rcases List.mem_append.mp hmem with h | h
  · rcases (natToStr_spec n).2.1 '\n' h with ⟨d, hd, hdc⟩
    rw [hdc] at hnl
    exact (digitChar_spec d hd).2.1 hnl
  · rcases List.mem_cons.mp h with h | h
    · exact absurd h (by decide)
    · rcases (natToStr_spec m).2.1 '\n' h with ⟨d, hd, hdc⟩
      rw [hdc] at hnl
      exact (digitChar_spec d hd).2.1 hnl

/-- On a valid alignment the three checks pass and the encoder writes
the header line followed by one record line per sequence. -/
theorem encoder_writes_ok (a : Alignment') (h1 : a.is_empty = false)
    (h2 : a.sequence_length ≠ 0) (h3 : ∀ i ∈ a.ids, i.length ≤ 10) :
    alignment_to_phylip_writes a =
      (header_line a :: a.seqs.map record_line, none) := by
  have hf : a.ids.find? (fun id_ => decide (10 < id_.length)) = none :=
    List.find?_eq_none.mpr (fun i hi => by
      simpa using Nat.not_lt.mpr (h3 i hi))
  simp [alignment_to_phylip_writes, h1, h2, hf]

/-- A `filterMap` whose function returns `some` of `g` on every member
is the `map` of `g`. -/
theorem filterMap_eq_map_of_forall {α β : Type} (f : α → Option β)
    (g : α → β) : ∀ l : List α, (∀ x ∈ l, f x = some (g x)) →
    l.filterMap f = l.map g := by
  intro l
  induction l with
  | nil => intro _; rfl
  | cons x xs ih =>
    intro h
    rw [List.filterMap_cons, h x (List.mem_cons_self _ _), List.map_cons,
      ih (fun y hy => h y (List.mem_cons_of_mem _ hy))]

/-! ### Claim C6: encoder output layout -/

/-- C6.  For a valid alignment the encoder writes exactly the header
line `"{count} {length}\n"` (single separating space, no leading
padding) followed, per sequence in iteration order, by one written line:
the identifier left-justified to exactly 10 characters (an empty
identifier becomes 10 spaces), immediately followed by the residue text
split into 10-character chunks joined by single spaces, then a newline.
Each sequence's full residue text lies in its single line (the chunks
concatenate back to it), so no sequence is wrapped. -/
theorem encoder_layout (a : Alignment') (h1 : a.is_empty = false)
    (h2 : a.sequence_length ≠ 0) (h3 : ∀ i ∈ a.ids, i.length ≤ 10) :
    alignment_to_phylip_writes a =
      ((natToStr a.sequence_count ++ ' ' :: (natToStr a.sequence_length ++ ['\n']))
        :: a.seqs.map (fun p =>
            ljust p.1 10 ++ joinWith [' '] (chunksOf 10 p.2) ++ ['\n']), none) ∧
    (∀ i ∈ a.ids, (ljust i 10).length = 10) ∧
    ljust [] 10 = List.replicate 10 ' ' ∧
    (∀ p ∈ a.seqs, (chunksOf 10 p.2).flatten = p.2 ∧
      ∀ ch ∈ chunksOf 10 p.2, ch.length ≤ 10 ∧ ch ≠ []) ∧
    (alignment_to_phylip_writes a).1.length = 1 + a.sequence_count := by
  have hw := encoder_writes_ok a h1 h2 h3
  refine ⟨?_, ?_, ?_, ?_, ?_⟩
  · rw [hw]
    rfl
  · intro i hi
    exact ljust_length i 10 (h3 i hi)
  · rfl
  · intro p _
    exact ⟨chunksOf_flatten 10 (by omega) p.2,
      fun ch hch => chunksOfAux_mem 10 (by omega) _ _ ch hch⟩
  · rw [hw]
    simp [Alignment'.sequence_count]
    omega

/-- Witness for C6 at a one-sequence alignment with an empty identifier
and an 11-character residue string (two chunks). -/
theorem encoder_layout_witness :
    alignment_to_phylip_writes
      ⟨[([], ['A', 'B', 'C', 'D', 'E', 'F', 'G', 'H', 'I', 'J', 'K'])]⟩ =
      ([['1', ' ', '1', '1', '\n'],
        [' ', ' ', ' ', ' ', ' ', ' ', ' ', ' ', ' ', ' ',
         'A', 'B', 'C', 'D', 'E', 'F', 'G', 'H', 'I', 'J', ' ', 'K', '\n']],
       none) := by
  have h := (encoder_layout
    ⟨[([], ['A', 'B', 'C', 'D', 'E', 'F', 'G', 'H', 'I', 'J', 'K'])]⟩
    (by rfl) (by decide) (by decide)).1
  exact h.trans (by rfl)

/-! ### Claim C1: the round trip -/

/-- C1 counterexample: encoding the one-sequence alignment
`[("a", "ACGTA")]` and decoding the result (strict strategy, the
reader's default) returns the identifier padded to 10 characters,
`"a         "`, not the original `"a"`; so the decode does not reproduce
the same `(identifier, residues)` pairs. -/
theorem round_trip_claim_counterexample :
    alignment_to_phylip ⟨[(['a'], ['A', 'C', 'G', 'T', 'A'])]⟩ =
      Except.ok
        ['1', ' ', '5', '\n',
         'a', ' ', ' ', ' ', ' ', ' ', ' ', ' ', ' ', ' ',
         'A', 'C', 'G', 'T', 'A', '\n'] ∧
    parse_phylip_raw
      (linesOfText
        ['1', ' ', '5', '\n',
         'a', ' ', ' ', ' ', ' ', ' ', ' ', ' ', ' ', ' ',
         'A', 'C', 'G', 'T', 'A', '\n']) strictParser =
      Except.ok [(['A', 'C', 'G', 'T', 'A'],
        ['a', ' ', ' ', ' ', ' ', ' ', ' ', ' ', ' ', ' '])] ∧
    (['a', ' ', ' ', ' ', ' ', ' ', ' ', ' ', ' ', ' '] : Str) ≠ ['a'] :=
  ⟨rfl, rfl, by decide⟩

/-- C1 amended.  For every non-empty alignment whose identifiers are at
most 10 characters and contain no newline, are pairwise distinct, and
whose residue strings are non-empty, of equal length and free of
whitespace characters, decoding the encoder's output with the strict
strategy yields, in order, one record per sequence whose residues are
exactly the original residues and whose identifier is the original
identifier left-justified with spaces to exactly 10 characters. -/
theorem round_trip_amended (a : Alignment')
    (hne : a.seqs ≠ [])
    (_huniq : a.ids.Pairwise (· ≠ ·))
    (hidlen : ∀ i ∈ a.ids, i.length ≤ 10)
    (hidnl : ∀ i ∈ a.ids, '\n' ∉ i)
    (hres_ne : ∀ p ∈ a.seqs, p.2 ≠ [])
    (hres_len : ∀ p ∈ a.seqs, p.2.length = a.sequence_length)
    (hres_ws : ∀ p ∈ a.seqs, ∀ c ∈ p.2, c ∉ whitespaceChars) :
    ∃ text, alignment_to_phylip a = Except.ok text ∧
      parse_phylip_raw (linesOfText text) strictParser =
        Except.ok (a.seqs.map (fun p => (p.2, ljust p.1 10))) := by
  have hemp : a.is_empty = false := by
    rcases hsq : a.seqs with _ | ⟨p0, rest⟩
    · exact absurd hsq hne
    · simp [Alignment'.is_empty, hsq]
  have hlen0 : a.sequence_length ≠ 0 := by
    rcases hsq : a.seqs with _ | ⟨⟨i0, s0⟩, rest⟩
    · exact absurd hsq hne
    · have hp0 : (i0, s0) ∈ a.seqs := by
        rw [hsq]; exact List.mem_cons_self _ _
      have hs0 := hres_ne (i0, s0) hp0
      simp only [Alignment'.sequence_length, hsq]
      intro hz
      exact hs0 (List.length_eq_zero.mp hz)
  have hwrites := encoder_writes_ok a hemp hlen0 hidlen
  have htext : alignment_to_phylip a =
      Except.ok ((header_line a :: a.seqs.map record_line).flatten) := by
    simp [alignment_to_phylip, hwrites]
  refine ⟨_, htext, ?_⟩
  have hshape : header_line a :: a.seqs.map record_line =
      ((natToStr a.sequence_count ++ ' ' :: natToStr a.sequence_length)
        :: a.seqs.map (fun p => ljust p.1 10 ++ chunk_str p.2 10 [' '])).map
        (fun l => l ++ ['\n']) := by
    rw [List.map_cons, List.map_map]
    have h1 : header_line a =
        (natToStr a.sequence_count ++ ' ' :: natToStr a.sequence_length)
          ++ ['\n'] := by
      simp [header_line]
    have h2 : a.seqs.map record_line =
        a.seqs.map ((fun l => l ++ ['\n']) ∘
          (fun p => ljust p.1 10 ++ chunk_str p.2 10 [' '])) := by
      apply List.map_congr_left
      intro p _
      simp [record_line, Function.comp]
    rw [h1, h2]
  have hlines : linesOfText ((header_line a :: a.seqs.map record_line).flatten) =
      (natToStr a.sequence_count ++ ' ' :: natToStr a.sequence_length)
        :: a.seqs.map (fun p => ljust p.1 10 ++ chunk_str p.2 10 [' ']) := by
    rw [hshape]
    apply linesOfText_flatten
    intro l hl
    rcases List.mem_cons.mp hl with h | h
    · subst h
      exact header_content_no_newline a.sequence_count a.sequence_length
    · rcases List.mem_map.mp h with ⟨p, hp, rfl⟩
      exact record_content_no_newline p.1 p.2
        (hidnl p.1 (List.mem_map_of_mem Prod.fst hp)) (hres_ws p hp)
  rw [hlines]
  have hh := header_line_parses a.sequence_count a.sequence_length
  have hraw := parse_phylip_raw_records _ _ _
    (a.seqs.map (fun p => ljust p.1 10 ++ chunk_str p.2 10 [' ']))
    strictParser (fun l => by simp [strictParser]) hh
  rw [hraw]
  have hgen : lineGenerator
      (a.seqs.map (fun p => ljust p.1 10 ++ chunk_str p.2 10 [' '])) true =
      a.seqs.map (fun p => ljust p.1 10 ++ chunk_str p.2 10 [' ']) := by
    show List.filter _ _ = _
    apply List.filter_eq_self.mpr
    intro l hl
    rcases List.mem_map.mp hl with ⟨p, hp, rfl⟩
    rw [record_content_not_blank p.1 p.2 (hres_ne p hp) (hres_ws p hp)]
    rfl
  rw [hgen, List.filterMap_map]
  refine congrArg Except.ok (filterMap_eq_map_of_forall _ _ _ ?_)
  intro p hp
  have hid : p.1.length ≤ 10 := hidlen p.1 (List.mem_map_of_mem Prod.fst hp)
  rcases take_drop_record p.1 (chunk_str p.2 10 [' ']) hid with ⟨htake, hdrop⟩
  have hsp : strictParser (ljust p.1 10 ++ chunk_str p.2 10 [' ']) =
      some (p.2, ljust p.1 10) := by
    unfold strictParser strict_ids
    rw [htake, hdrop, removeWhitespace_chunk_str p.2 (hres_ws p hp)]
  have hc : ((p.2.length : Int) = (a.sequence_length : Int)) := by
    exact_mod_cast hres_len p hp
  simp [Function.comp, hsp, hc]
  exact hres_len p hp

/-- Witness for C1 amended at a two-sequence alignment. -/
theorem round_trip_amended_witness :
    (Alignment'.mk [(['a', 'b'], ['A', 'C', 'G', 'T', 'A']),
        (['c'], ['G', 'G', 'G', 'C', 'C'])]).seqs ≠ [] ∧
    ∃ text,
      alignment_to_phylip
        (Alignment'.mk [(['a', 'b'], ['A', 'C', 'G', 'T', 'A']),
          (['c'], ['G', 'G', 'G', 'C', 'C'])]) = Except.ok text ∧
      parse_phylip_raw (linesOfText text) strictParser =
        Except.ok ((Alignment'.mk [(['a', 'b'], ['A', 'C', 'G', 'T', 'A']),
          (['c'], ['G', 'G', 'G', 'C', 'C'])]).seqs.map
            (fun p => (p.2, ljust p.1 10))) :=
  ⟨by decide,
   round_trip_amended
     (Alignment'.mk [(['a', 'b'], ['A', 'C', 'G', 'T', 'A']),
       (['c'], ['G', 'G', 'G', 'C', 'C'])])
     (by decide) (by decide) (by decide) (by decide) (by decide) (by decide)
     (by decide)⟩
